import Mathlib

/-
  Verification development for the AWLMIX batch calculator.

  The embedding translates the arithmetic core of the repository into Lean,
  modelling Python dicts as association lists from ingredient identifiers
  (strings) to rational quantities, and Python float arithmetic as exact
  rational arithmetic.  Sorting of key sets mirrors the sorted() calls in
  the source; Python round (banker rounding) and the 4-decimal rounding in
  pandas and SQLite are modelled explicitly.
-/

namespace AwlMix

/-- A formula is a mapping from ingredient identifier to quantity, embedded
as an association list (Python dict with unique keys). -/
abbrev Formula := List (String × ℚ)

/-- Dictionary lookup with default 0, as in rework.get(ing, 0) in the source. -/
def fget : Formula → String → ℚ
  | [], _ => 0
  | (k, v) :: rest, i => if i = k then v else fget rest i

/-- The key set of a formula. -/
def keys (F : Formula) : List String := F.map Prod.fst

/-- The quantity list of a formula. -/
def qtys (F : Formula) : List ℚ := F.map Prod.snd

/-- Total quantity of a formula, as accumulated by collect_lines in the source. -/
def ftotal (F : Formula) : ℚ := (qtys F).sum

/-- sorted(set(rework.keys()) and set(target.keys())) from
compute_max_safe_fraction in pages/rework.py. -/
def sortedShared (R T : Formula) : List String :=
  List.insertionSort (fun a b => a ≤ b) ((keys R ∩ keys T).dedup)

/-- sorted(set(rework.keys()) or set(target.keys())) from compute_plan in
pages/rework.py. -/
def sortedUnion (R T : Formula) : List String :=
  List.insertionSort (fun a b => a ≤ b) ((keys R ++ keys T).dedup)

/-- The loop of compute_max_safe_fraction in pages/rework.py: iterate the
sorted shared ingredients, skip those with rework quantity at most 0, and
keep the strictly smallest ratio target/rework together with the ingredient
that first attained it.  The accumulator none plays the role of the initial
float("inf"). -/
def msfLoop (R T : Formula) : List String → Option (ℚ × String) → Option (ℚ × String)
  | [], acc => acc
  | ing :: rest, acc =>
    let rw := fget R ing
    let tg := fget T ing
    if rw ≤ 0 then msfLoop R T rest acc
    else
      let fi := tg / rw
      match acc with
      | none => msfLoop R T rest (some (fi, ing))
      | some (m, lim) =>
        if fi < m then msfLoop R T rest (some (fi, ing))
        else msfLoop R T rest (some (m, lim))

/-- compute_max_safe_fraction from pages/rework.py (the returned fraction and
limiting ingredient; the display dataframe is omitted). -/
def computeMaxSafeFraction (R T : Formula) : ℚ × String :=
  match msfLoop R T (sortedShared R T) none with
  | none => (0, "N/A")
  | some (m, lim) => (m, lim)

/-- The tolerance 1e-9 used by compute_plan for the over-target flag. -/
def epsTol : ℚ := 1 / 1000000000

/-- One output line of compute_plan in pages/rework.py. -/
structure PlanLine where
  ing : String
  rework_g : ℚ
  target_g : ℚ
  used_g : ℚ
  addBack_g : ℚ
  overTarget : Bool
deriving DecidableEq

/-- compute_plan from pages/rework.py: one line per ingredient of the sorted
union, with used = fraction times rework quantity, add-back = target minus
used, and the over-target flag when the add-back is below -1e-9. -/
def computePlan (R T : Formula) (reuseFraction : ℚ) : List PlanLine :=
  (sortedUnion R T).map (fun ing =>
    let rw := fget R ing
    let tg := fget T ing
    let used := reuseFraction * rw
    let add := tg - used
    { ing := ing, rework_g := rw, target_g := tg, used_g := used,
      addBack_g := add, overTarget := decide (add < -epsTol) })

/-- Round half to even on rationals, the behaviour of the Python round
builtin used by the ratio scaler in pages/new_batch.py. -/
def roundHalfEven (x : ℚ) : ℤ :=
  let f : ℤ := ⌊x⌋
  let r : ℚ := x - f
  if r < 1 / 2 then f
  else if 1 / 2 < r then f + 1
  else if f % 2 = 0 then f else f + 1

/-- Round half away from zero on rationals, the behaviour of the SQLite
ROUND function used by db.py. -/
def roundHalfAway (x : ℚ) : ℤ :=
  if 0 ≤ x then ⌊x + 1 / 2⌋ else ⌈x - 1 / 2⌉

/-- Rounding to 4 decimal places as performed by pandas Series.round(4)
in pages/feasibility.py (numpy half-to-even). -/
def pandasRound4 (x : ℚ) : ℚ := (roundHalfEven (x * 10000) : ℚ) / 10000

/-- Rounding to 4 decimal places as performed by ROUND(SUM(t.Qty), 4)
in db.py. -/
def sqliteRound4 (x : ℚ) : ℚ := (roundHalfAway (x * 10000) : ℚ) / 10000

/-- Helper loop for the index of the first maximal element, the behaviour of
max(range(len(final)), key=...) in pages/new_batch.py. -/
def firstArgmaxAux : List ℚ → Nat → Nat → ℚ → Nat
  | [], _, bi, _ => bi
  | x :: rest, i, bi, bv =>
    if bv < x then firstArgmaxAux rest (i + 1) i x
    else firstArgmaxAux rest (i + 1) bi bv

/-- Index of the first maximal element of a list (0 on the empty list). -/
def firstArgmax : List ℚ → Nat
  | [] => 0
  | x :: rest => firstArgmaxAux rest 1 0 x

/-- The scaling computation of the Calculate batch handler in
pages/new_batch.py: ratios, raw scaled quantities, optional rounding to the
granularity step, and drift correction on the largest rounded line. -/
def scaleBatch (oldG : List ℚ) (newTotal step : ℚ) : List ℚ :=
  let totalG := oldG.sum
  let ratios := oldG.map (fun x => x / totalG)
  let raw := ratios.map (fun r => r * newTotal)
  if step = 0 then raw
  else
    let rounded := raw.map (fun x => (roundHalfEven (x / step) : ℚ) * step)
    let drift := newTotal - rounded.sum
    let idx := firstArgmax rounded
    rounded.set idx (rounded.getD idx 0 + drift)

/-- The rejection of invalid requests, modelling st.error followed by
st.stop in the page handlers (the spec calls this InvalidInputError). -/
structure InvalidInputError where
  msg : String
deriving DecidableEq

/-- The Calculate batch handler in pages/new_batch.py: reject when the old
total is not positive, otherwise scale. -/
def calculateBatch (oldG : List ℚ) (newTotal step : ℚ) :
    Except InvalidInputError (List ℚ) :=
  if oldG.sum ≤ 0 then .error ⟨"RFT total must be greater than zero."⟩
  else .ok (scaleBatch oldG newTotal step)

/-- The reuse mode selector of pages/rework.py. -/
inductive ReuseMode where
  | auto
  | manual
deriving DecidableEq

/-- The Calculate rework plan handler in pages/rework.py: reject when either
total is not positive; otherwise compute the max safe fraction, cap the safe
percent at 100, pick the reuse percent by mode, and build the plan. -/
def calculateReworkPlan (R T : Formula) (mode : ReuseMode) (manualPct : ℚ) :
    Except InvalidInputError (ℚ × List PlanLine) :=
  if ftotal R ≤ 0 ∨ ftotal T ≤ 0 then
    .error ⟨"Rework and target totals must be greater than zero."⟩
  else
    let ms := computeMaxSafeFraction R T
    let safePct := min 100 (ms.1 * 100)
    let reusePct := match mode with
      | .auto => safePct
      | .manual => manualPct
    let reuseFraction := reusePct / 100
    .ok (reuseFraction, computePlan R T reuseFraction)

/-- One output row of the feasibility page. -/
structure FeasRow where
  material : String
  requiredAmt : ℚ
  onHand : ℚ
  shortage : ℚ
  status : String
deriving DecidableEq

/-- The distinct material keys of a BOM in sorted order, as produced by the
pandas groupby in pages/feasibility.py. -/
def bomMaterials (bom : List (String × ℚ)) : List String :=
  List.insertionSort (fun a b => a ≤ b) ((bom.map Prod.fst).dedup)

/-- Required quantity for one material: the grouped sum of
total_weight * (percent / 100) over the BOM rows of that material,
from pages/feasibility.py. -/
def requiredLB (bom : List (String × ℚ)) (totalWeight : ℚ) (k : String) : ℚ :=
  ((bom.filter (fun r => r.1 = k)).map (fun r => totalWeight * (r.2 / 100))).sum

/-- The feasibility computation of pages/feasibility.py: per material,
required quantity, on-hand (0 when missing), shortage rounded to 4 decimals,
and FAIL exactly when the rounded shortage is positive. -/
def feasRows (bom : List (String × ℚ)) (totalWeight : ℚ) (onhand : Formula) :
    List FeasRow :=
  (bomMaterials bom).map (fun k =>
    let req := requiredLB bom totalWeight k
    let oh := fget onhand k
    let sh := pandasRound4 (req - oh)
    { material := k, requiredAmt := req, onHand := oh, shortage := sh,
      status := if 0 < sh then "FAIL" else "PASS" })

/-- One row of the InventoryTxn ledger table of db.py. -/
structure Txn where
  material : String
  location : String
  lot : String
  txnType : String
  qty : ℚ
  uom : String
  notes : String
deriving DecidableEq

/-- add_txn from db.py: an insert appends one row to the ledger. -/
def addTxn (ledger : List Txn) (t : Txn) : List Txn := ledger ++ [t]

/-- The inventory operations of pages/inventory.py: posting a receipt line
or an issue line (both carry a positive quantity in the UI). -/
inductive InvOp where
  | receipt (material location lot uom notes : String) (qty : ℚ)
  | issue (material location lot uom notes : String) (qty : ℚ)
deriving DecidableEq

/-- Posting one operation: the Post Receipt handler records the quantity
positively, the Post Issue handler negates it, both through add_txn. -/
def postOp (ledger : List Txn) : InvOp → List Txn
  | .receipt m l lot u notes q => addTxn ledger ⟨m, l, lot, "RECEIPT", q, u, notes⟩
  | .issue m l lot u notes q => addTxn ledger ⟨m, l, lot, "ISSUE", -q, u, notes⟩

/-- Posting a list of operations in order. -/
def runOps (ledger : List Txn) (ops : List InvOp) : List Txn :=
  ops.foldl postOp ledger

/-- The raw signed sum of ledger quantities for one
(material, location, unit) triple. -/
def ledgerSum (ledger : List Txn) (m loc uom : String) : ℚ :=
  ((ledger.filter (fun t =>
    decide (t.material = m ∧ t.location = loc ∧ t.uom = uom))).map
      (fun t => t.qty)).sum

/-- get_on_hand_by_location from db.py: ROUND(SUM(Qty), 4) over the
transactions of the requested location and unit, per material. -/
def getOnHandByLocation (ledger : List Txn) (loc uom m : String) : ℚ :=
  sqliteRound4 (ledgerSum ledger m loc uom)

/-- The signed contribution of one operation to one
(material, location, unit) triple: receipts count positively, issues
negatively. -/
def opContribution (op : InvOp) (m loc uom : String) : ℚ :=
  match op with
  | .receipt m2 l2 _ u2 _ q => if m2 = m ∧ l2 = loc ∧ u2 = uom then q else 0
  | .issue m2 l2 _ u2 _ q => if m2 = m ∧ l2 = loc ∧ u2 = uom then -q else 0

/-- The signed sum of a list of operations for one
(material, location, unit) triple. -/
def signedTotal (ops : List InvOp) (m loc uom : String) : ℚ :=
  (ops.map (fun op => opContribution op m loc uom)).sum

/-- Concrete rework formula refuting claim C1: ingredient B occurs only in
the rework formula. -/
def c1R : Formula := [("A", 10), ("B", 5)]

/-- Concrete target formula refuting claim C1. -/
def c1T : Formula := [("A", 5)]

/-- Concrete rework formula for the claim C1 witness. -/
def c1wR : Formula := [("A", 2)]

/-- Concrete target formula for the claim C1 witness. -/
def c1wT : Formula := [("A", 1)]

/-- Concrete rework formula refuting claim C4. -/
def c4R : Formula := [("A", 1)]

/-- Concrete target formula refuting claim C4. -/
def c4T : Formula := [("A", 1)]

/-- Rework formula of the worked example in the specification. -/
def specRW : Formula := [("A", 7890), ("B", 5), ("C", 25), ("D", 60)]

/-- Target formula of the worked example in the specification. -/
def specTG : Formula := [("A", 14776), ("B", 4), ("C", 744), ("D", 180)]

/-- BOM of the feasibility example in the specification: 70 percent A,
30 percent B. -/
def exBom : List (String × ℚ) := [("A", 70), ("B", 30)]

/-- On-hand snapshot of the feasibility example in the specification. -/
def exOnHand : Formula := [("A", 500), ("B", 400)]

/-- Concrete rework formula for claim C10: the max safe fraction exceeds 1. -/
def c10R : Formula := [("A", 1)]

/-- Concrete target formula for claim C10. -/
def c10T : Formula := [("A", 2)]

/-- Small string order fact used to evaluate the sorts on examples. -/
theorem strLe_AB : ("A" : String) ≤ "B" := by
  rw [String.le_iff_toList_le]; decide

/-- Small string fact used to evaluate lookups on examples. -/
theorem strNe_AB : ("A" : String) ≠ "B" := by simp

/-- Small string fact used to evaluate lookups on examples. -/
theorem strNe_BA : ("B" : String) ≠ "A" := by simp

/-- Character list order fact used to evaluate the sorts on examples. -/
theorem charLt_AB : (['A'] : List Char) < ['B'] := by decide

/-- Character list order fact used to evaluate the sorts on examples. -/
theorem charNotLt_BA : ¬ (['B'] : List Char) < ['A'] := by decide

/-- A lookup in a formula with nonnegative quantities is nonnegative. -/
theorem fget_nonneg (F : Formula) (hF : ∀ p ∈ F, 0 ≤ p.2) (i : String) :
    0 ≤ fget F i := by
  induction F with
  | nil => simp [fget]
  | cons p rest ih =>
    obtain ⟨k, v⟩ := p
    rw [fget]
    by_cases h : i = k
    · rw [if_pos h]
      exact hF (k, v) (List.mem_cons_self _ _)
    · rw [if_neg h]
      exact ih (fun q hq => hF q (List.mem_cons_of_mem _ hq))

/-- An ingredient with a positive lookup is a key of the formula. -/
theorem fget_pos_mem (F : Formula) (i : String) (h : 0 < fget F i) : i ∈ keys F := by
  induction F with
  | nil => simp [fget] at h
  | cons p rest ih =>
    obtain ⟨k, v⟩ := p
    rw [fget] at h
    by_cases hik : i = k
    · simp [keys, hik]
    · rw [if_neg hik] at h
      exact List.mem_cons_of_mem _ (ih h)

/-- Membership in the sorted shared key list. -/
theorem mem_sortedShared {R T : Formula} {i : String} :
    i ∈ sortedShared R T ↔ i ∈ keys R ∧ i ∈ keys T := by
  unfold sortedShared
  rw [(List.perm_insertionSort _ _).mem_iff]
  simp [List.mem_inter_iff]

/-- Membership in the sorted union key list. -/
theorem mem_sortedUnion {R T : Formula} {i : String} :
    i ∈ sortedUnion R T ↔ i ∈ keys R ∨ i ∈ keys T := by
  unfold sortedUnion
  rw [(List.perm_insertionSort _ _).mem_iff]
  simp

/-- The sorted shared key list has no duplicates. -/
theorem nodup_sortedShared (R T : Formula) : (sortedShared R T).Nodup :=
  (List.perm_insertionSort _ _).nodup_iff.mpr (List.nodup_dedup _)

/-- The sorted union key list has no duplicates. -/
theorem nodup_sortedUnion (R T : Formula) : (sortedUnion R T).Nodup :=
  (List.perm_insertionSort _ _).nodup_iff.mpr (List.nodup_dedup _)

/-- The sorted shared key list is sorted. -/
theorem sorted_sortedShared (R T : Formula) :
    (sortedShared R T).Sorted (fun a b => a ≤ b) :=
  List.sorted_insertionSort _ _

/-- Distributing a list sum over pointwise addition. -/
theorem sum_map_add {α : Type} (l : List α) (f g : α → ℚ) :
    (l.map (fun x => f x + g x)).sum = (l.map f).sum + (l.map g).sum := by
  induction l with
  | nil => simp
  | cons a l ih => simp [ih]; ring

/-- Sum of division then multiplication over a list. -/
theorem sum_map_div_mul (l : List ℚ) (t n : ℚ) :
    (l.map (fun x => x / t * n)).sum = l.sum / t * n := by
  induction l with
  | nil => simp
  | cons a l ih => simp [ih]; ring

/-- Adding a drift to one entry of a list adds it to the sum. -/
theorem sum_set_getD_add (l : List ℚ) (i : Nat) (h : i < l.length) (d : ℚ) :
    (l.set i (l.getD i 0 + d)).sum = l.sum + d := by
  induction l generalizing i with
  | nil => simp at h
  | cons a l ih =>
    cases i with
    | zero => simp; ring
    | succ n =>
      simp only [List.set_cons_succ, List.getD_cons_succ, List.sum_cons]
      rw [ih n (by simpa using h)]
      ring

/-- The helper argmax loop stays below the running index bound. -/
theorem firstArgmaxAux_lt (l : List ℚ) :
    ∀ (i bi : Nat) (bv : ℚ), bi < i → firstArgmaxAux l i bi bv < i + l.length := by
  induction l with
  | nil =>
    intro i bi bv h
    simpa [firstArgmaxAux] using h.trans_le (Nat.le_add_right i 0)
  | cons x rest ih =>
    intro i bi bv h
    rw [firstArgmaxAux]
    by_cases hx : bv < x
    · rw [if_pos hx]
      have := ih (i + 1) i x (Nat.lt_succ_self i)
      simp only [List.length_cons]
      omega
    · rw [if_neg hx]
      have := ih (i + 1) bi bv (h.trans (Nat.lt_succ_self i))
      simp only [List.length_cons]
      omega

/-- The first argmax of a nonempty list is a valid index. -/
theorem firstArgmax_lt (l : List ℚ) (h : l ≠ []) : firstArgmax l < l.length := by
  cases l with
  | nil => exact absurd rfl h
  | cons x rest =>
    rw [firstArgmax]
    have := firstArgmaxAux_lt rest 1 0 x Nat.one_pos
    simpa [Nat.add_comm] using this

/-- C2: for every formula with positive total of old quantities, every new
total at least 0, and every granularity in the offered set (none, 1, 0.1,
0.01), the sum of the scaled quantities after rounding and drift correction
equals the requested new total exactly (in the exact-arithmetic model of the
Calculate batch handler). -/
theorem c2_scale_conservation (oldG : List ℚ) (newTotal step : ℚ)
    (hpos : 0 < oldG.sum)
    (hstep : step = 0 ∨ step = 1 ∨ step = 1 / 10 ∨ step = 1 / 100)
    (hnt : 0 ≤ newTotal) :
    (scaleBatch oldG newTotal step).sum = newTotal := by
  clear hstep hnt
  unfold scaleBatch
  by_cases hz : step = 0
  · rw [if_pos hz, List.map_map]
    have h := sum_map_div_mul oldG oldG.sum newTotal
    have hcomp : ((fun r => r * newTotal) ∘ fun x => x / oldG.sum)
        = fun x => x / oldG.sum * newTotal := rfl
    rw [hcomp, h, div_self (ne_of_gt hpos), one_mul]
  · rw [if_neg hz]
    have hne : oldG ≠ [] := by
      intro hnil
      rw [hnil] at hpos
      simp at hpos
    set rounded :=
      ((oldG.map (fun x => x / oldG.sum)).map (fun r => r * newTotal)).map
        (fun x => (roundHalfEven (x / step) : ℚ) * step) with hr
    have hlen : firstArgmax rounded < rounded.length := by
      apply firstArgmax_lt
      intro hnil2
      apply hne
      have : rounded.length = 0 := by rw [hnil2]; rfl
      simp [hr] at this
      exact this
    rw [sum_set_getD_add rounded (firstArgmax rounded) hlen]
    ring

/-- C2 witness: the conservation theorem applied to a concrete formula,
new total and granularity. -/
theorem c2_scale_conservation_witness : (scaleBatch [1, 3] 10 1).sum = 10 :=
  c2_scale_conservation [1, 3] 10 1 (by norm_num) (by norm_num) (by norm_num)

/-- C8: an all-zero or empty formula is rejected with InvalidInputError by
both handlers; scaling fails exactly when the old total is at most 0, and
planning fails exactly when the rework total or the target total is at
most 0. -/
theorem c8_zero_total_rejected (oldG : List ℚ) (newTotal step : ℚ)
    (R T : Formula) (mode : ReuseMode) (manualPct : ℚ) :
    ((∀ q ∈ oldG, q = 0) →
      calculateBatch oldG newTotal step
        = .error ⟨"RFT total must be greater than zero."⟩)
    ∧ (oldG.sum ≤ 0 ↔
      calculateBatch oldG newTotal step
        = .error ⟨"RFT total must be greater than zero."⟩)
    ∧ (((∀ p ∈ R, p.2 = 0) ∨ (∀ p ∈ T, p.2 = 0)) →
      calculateReworkPlan R T mode manualPct
        = .error ⟨"Rework and target totals must be greater than zero."⟩)
    ∧ ((ftotal R ≤ 0 ∨ ftotal T ≤ 0) ↔
      calculateReworkPlan R T mode manualPct
        = .error ⟨"Rework and target totals must be greater than zero."⟩) := by
  have hbatch : oldG.sum ≤ 0 ↔
      calculateBatch oldG newTotal step
        = .error ⟨"RFT total must be greater than zero."⟩ := by
    unfold calculateBatch
    by_cases h : oldG.sum ≤ 0
    · simp [h]
    · simp [h]
  have hplan : (ftotal R ≤ 0 ∨ ftotal T ≤ 0) ↔
      calculateReworkPlan R T mode manualPct
        = .error ⟨"Rework and target totals must be greater than zero."⟩ := by
    unfold calculateReworkPlan
    by_cases h : ftotal R ≤ 0 ∨ ftotal T ≤ 0
    · simp [h]
    · simp [h]
  refine ⟨?_, hbatch, ?_, hplan⟩
  · intro hall
    apply hbatch.mp
    rw [List.sum_eq_zero hall]
  · intro hall
    apply hplan.mp
    rcases hall with hall | hall
    · left
      have : ftotal R = 0 := by
        apply List.sum_eq_zero
        intro q hq
        obtain ⟨p, hp, rfl⟩ := List.mem_map.mp hq
        exact hall p hp
      rw [this]
    · right
      have : ftotal T = 0 := by
        apply List.sum_eq_zero
        intro q hq
        obtain ⟨p, hp, rfl⟩ := List.mem_map.mp hq
        exact hall p hp
      rw [this]

/-- C8 witness: both handlers reject concrete all-zero inputs. -/
theorem c8_zero_total_rejected_witness :
    calculateBatch [0, 0] 5 1 = .error ⟨"RFT total must be greater than zero."⟩
    ∧ calculateReworkPlan [("A", 0)] [("A", 1)] .auto 80
        = .error ⟨"Rework and target totals must be greater than zero."⟩ :=
  ⟨(c8_zero_total_rejected [0, 0] 5 1 [] [] .auto 80).1 (by norm_num),
   (c8_zero_total_rejected [0, 0] 5 1 [("A", 0)] [("A", 1)] .auto 80).2.2.1
     (Or.inl (by intro p hp; simp at hp; rw [hp]))⟩

/-- Unfolding lemma for one step of the max safe fraction loop. -/
theorem msfLoop_cons (R T : Formula) (i : String) (rest : List String)
    (acc : Option (ℚ × String)) :
    msfLoop R T (i :: rest) acc =
      if fget R i ≤ 0 then msfLoop R T rest acc
      else
        match acc with
        | none => msfLoop R T rest (some (fget T i / fget R i, i))
        | some (m, lim) =>
          if fget T i / fget R i < m then
            msfLoop R T rest (some (fget T i / fget R i, i))
          else msfLoop R T rest (some (m, lim)) := rfl

/-- A skipped ingredient (rework quantity at most 0) leaves the loop state. -/
theorem msfLoop_cons_skip (R T : Formula) (i : String) (rest : List String)
    (acc : Option (ℚ × String)) (h : fget R i ≤ 0) :
    msfLoop R T (i :: rest) acc = msfLoop R T rest acc := by
  rw [msfLoop_cons, if_pos h]

/-- The first eligible ingredient seeds the accumulator. -/
theorem msfLoop_cons_none (R T : Formula) (i : String) (rest : List String)
    (h : ¬ fget R i ≤ 0) :
    msfLoop R T (i :: rest) none
      = msfLoop R T rest (some (fget T i / fget R i, i)) := by
  rw [msfLoop_cons, if_neg h]

/-- A strictly smaller ratio replaces the accumulator. -/
theorem msfLoop_cons_some_lt (R T : Formula) (i : String) (rest : List String)
    (m : ℚ) (lim : String) (h1 : ¬ fget R i ≤ 0)
    (h2 : fget T i / fget R i < m) :
    msfLoop R T (i :: rest) (some (m, lim))
      = msfLoop R T rest (some (fget T i / fget R i, i)) := by
  rw [msfLoop_cons, if_neg h1]
  dsimp only
  rw [if_pos h2]

/-- A ratio that is not strictly smaller keeps the accumulator. -/
theorem msfLoop_cons_some_ge (R T : Formula) (i : String) (rest : List String)
    (m : ℚ) (lim : String) (h1 : ¬ fget R i ≤ 0)
    (h2 : ¬ fget T i / fget R i < m) :
    msfLoop R T (i :: rest) (some (m, lim))
      = msfLoop R T rest (some (m, lim)) := by
  rw [msfLoop_cons, if_neg h1]
  dsimp only
  rw [if_neg h2]

/-- Once seeded, the loop never returns to the initial state. -/
theorem msfLoop_some_ne_none (R T : Formula) :
    ∀ (l : List String) (p : ℚ × String), msfLoop R T l (some p) ≠ none := by
  intro l
  induction l with
  | nil => intro p h; simp [msfLoop] at h
  | cons i rest ih =>
    intro p
    obtain ⟨m, lim⟩ := p
    by_cases h1 : fget R i ≤ 0
    · rw [msfLoop_cons_skip R T i rest _ h1]; exact ih (m, lim)
    · by_cases h2 : fget T i / fget R i < m
      · rw [msfLoop_cons_some_lt R T i rest m lim h1 h2]; exact ih _
      · rw [msfLoop_cons_some_ge R T i rest m lim h1 h2]; exact ih _

/-- The loop produces no result exactly when every ingredient is skipped. -/
theorem msfLoop_none_iff (R T : Formula) :
    ∀ l : List String, msfLoop R T l none = none ↔ ∀ i ∈ l, fget R i ≤ 0 := by
  intro l
  induction l with
  | nil => simp [msfLoop]
  | cons i rest ih =>
    by_cases h1 : fget R i ≤ 0
    · rw [msfLoop_cons_skip R T i rest none h1, ih]
      simp [List.forall_mem_cons, h1]
    · rw [msfLoop_cons_none R T i rest h1]
      simp only [List.forall_mem_cons]
      constructor
      · intro h; exact absurd h (msfLoop_some_ne_none R T rest _)
      · intro h; exact absurd h.1 h1

/-- Structural characterisation of the loop from a seeded accumulator: either
the seed survives and bounds every eligible ratio, or the result splits the
list around the new limiting ingredient, with strictly larger ratios before
it and no smaller ratio after it. -/
theorem msfLoop_acc_spec (R T : Formula) :
    ∀ (l : List String) (m0 : ℚ) (lim0 : String) (m : ℚ) (lim : String),
    msfLoop R T l (some (m0, lim0)) = some (m, lim) →
    (m = m0 ∧ lim = lim0 ∧ ∀ j ∈ l, 0 < fget R j → m ≤ fget T j / fget R j)
    ∨ (∃ l₁ l₂, l = l₁ ++ lim :: l₂ ∧ 0 < fget R lim
        ∧ m = fget T lim / fget R lim ∧ m < m0
        ∧ (∀ j ∈ l₁, 0 < fget R j → m < fget T j / fget R j)
        ∧ (∀ j ∈ l₂, 0 < fget R j → m ≤ fget T j / fget R j)) := by
  intro l
  induction l with
  | nil =>
    intro m0 lim0 m lim h
    left
    have h2 := Option.some.inj h
    have hm : m0 = m := congrArg Prod.fst h2
    have hl : lim0 = lim := congrArg Prod.snd h2
    exact ⟨hm.symm, hl.symm, by simp⟩
  | cons i rest ih =>
    intro m0 lim0 m lim h
    by_cases h1 : fget R i ≤ 0
    · rw [msfLoop_cons_skip R T i rest _ h1] at h
      rcases ih m0 lim0 m lim h with ⟨he, hlm, hb⟩ |
        ⟨l₁, l₂, hsp, hpos, heq, hlt, hb1, hb2⟩
      · left
        refine ⟨he, hlm, ?_⟩
        intro j hj hjpos
        rcases List.mem_cons.mp hj with rfl | hj2
        · exact absurd h1 (not_le.mpr hjpos)
        · exact hb j hj2 hjpos
      · right
        refine ⟨i :: l₁, l₂, by rw [hsp, List.cons_append], hpos, heq, hlt, ?_, hb2⟩
        intro j hj hjpos
        rcases List.mem_cons.mp hj with rfl | hj2
        · exact absurd h1 (not_le.mpr hjpos)
        · exact hb1 j hj2 hjpos
    · by_cases h2 : fget T i / fget R i < m0
      · rw [msfLoop_cons_some_lt R T i rest m0 lim0 h1 h2] at h
        rcases ih _ _ m lim h with ⟨he, hlm, hb⟩ |
          ⟨l₁, l₂, hsp, hpos, heq, hlt, hb1, hb2⟩
        · right
          refine ⟨[], rest, by rw [hlm]; simp, ?_, ?_, ?_, by simp, hb⟩
          · rw [hlm]; exact not_le.mp h1
          · rw [hlm]; exact he
          · rw [he]; exact h2
        · right
          refine ⟨i :: l₁, l₂, by rw [hsp, List.cons_append], hpos, heq,
            lt_trans hlt h2, ?_, hb2⟩
          intro j hj hjpos
          rcases List.mem_cons.mp hj with rfl | hj2
          · exact hlt
          · exact hb1 j hj2 hjpos
      · rw [msfLoop_cons_some_ge R T i rest m0 lim0 h1 h2] at h
        rcases ih _ _ m lim h with ⟨he, hlm, hb⟩ |
          ⟨l₁, l₂, hsp, hpos, heq, hlt, hb1, hb2⟩
        · left
          refine ⟨he, hlm, ?_⟩
          intro j hj hjpos
          rcases List.mem_cons.mp hj with rfl | hj2
          · rw [he]; exact not_lt.mp h2
          · exact hb j hj2 hjpos
        · right
          refine ⟨i :: l₁, l₂, by rw [hsp, List.cons_append], hpos, heq, hlt, ?_, hb2⟩
          intro j hj hjpos
          rcases List.mem_cons.mp hj with rfl | hj2
          · exact lt_of_lt_of_le hlt (not_lt.mp h2)
          · exact hb1 j hj2 hjpos

/-- Structural characterisation of the loop from the initial state. -/
theorem msfLoop_start_spec (R T : Formula) :
    ∀ (l : List String) (m : ℚ) (lim : String),
    msfLoop R T l none = some (m, lim) →
    ∃ l₁ l₂, l = l₁ ++ lim :: l₂ ∧ 0 < fget R lim
      ∧ m = fget T lim / fget R lim
      ∧ (∀ j ∈ l₁, 0 < fget R j → m < fget T j / fget R j)
      ∧ (∀ j ∈ l₂, 0 < fget R j → m ≤ fget T j / fget R j) := by
  intro l
  induction l with
  | nil => intro m lim h; simp [msfLoop] at h
  | cons i rest ih =>
    intro m lim h
    by_cases h1 : fget R i ≤ 0
    · rw [msfLoop_cons_skip R T i rest none h1] at h
      obtain ⟨l₁, l₂, hsp, hpos, heq, hb1, hb2⟩ := ih m lim h
      refine ⟨i :: l₁, l₂, by rw [hsp, List.cons_append], hpos, heq, ?_, hb2⟩
      intro j hj hjpos
      rcases List.mem_cons.mp hj with rfl | hj2
      · exact absurd h1 (not_le.mpr hjpos)
      · exact hb1 j hj2 hjpos
    · rw [msfLoop_cons_none R T i rest h1] at h
      rcases msfLoop_acc_spec R T rest _ _ m lim h with ⟨he, hlm, hb⟩ |
        ⟨l₁, l₂, hsp, hpos, heq, hlt, hb1, hb2⟩
      · refine ⟨[], rest, by rw [hlm]; simp, by rw [hlm]; exact not_le.mp h1,
          by rw [hlm]; exact he, by simp, hb⟩
      · refine ⟨i :: l₁, l₂, by rw [hsp, List.cons_append], hpos, heq, ?_, hb2⟩
        intro j hj hjpos
        rcases List.mem_cons.mp hj with rfl | hj2
        · exact hlt
        · exact hb1 j hj2 hjpos

/-- The computed max safe fraction bounds every eligible shared ratio. -/
theorem msf_le (R T : Formula) (i : String) (hiR : i ∈ keys R) (hiT : i ∈ keys T)
    (hpos : 0 < fget R i) :
    (computeMaxSafeFraction R T).1 ≤ fget T i / fget R i := by
  have hmem : i ∈ sortedShared R T := mem_sortedShared.mpr ⟨hiR, hiT⟩
  rcases hcase : msfLoop R T (sortedShared R T) none with _ | ⟨m, lim⟩
  · exact absurd ((msfLoop_none_iff R T _).mp hcase i hmem) (not_le.mpr hpos)
  · obtain ⟨l₁, l₂, hsp, hpos2, heq, hb1, hb2⟩ := msfLoop_start_spec R T _ m lim hcase
    have hfst : (computeMaxSafeFraction R T).1 = m := by
      unfold computeMaxSafeFraction
      rw [hcase]
    rw [hfst]
    rw [hsp] at hmem
    rcases List.mem_append.mp hmem with hj1 | hj2
    · exact le_of_lt (hb1 i hj1 hpos)
    · rcases List.mem_cons.mp hj2 with rfl | hj3
      · exact le_of_eq heq
      · exact hb2 i hj3 hpos

/-- When an eligible shared ingredient exists, the reported limiting
ingredient is shared, has positive rework quantity, and attains the
returned fraction. -/
theorem msf_attained (R T : Formula)
    (hex : ∃ i, i ∈ keys R ∧ i ∈ keys T ∧ 0 < fget R i) :
    (computeMaxSafeFraction R T).2 ∈ keys R
    ∧ (computeMaxSafeFraction R T).2 ∈ keys T
    ∧ 0 < fget R (computeMaxSafeFraction R T).2
    ∧ (computeMaxSafeFraction R T).1
        = fget T (computeMaxSafeFraction R T).2
            / fget R (computeMaxSafeFraction R T).2 := by
  obtain ⟨i, hiR, hiT, hpos⟩ := hex
  have hmem : i ∈ sortedShared R T := mem_sortedShared.mpr ⟨hiR, hiT⟩
  rcases hcase : msfLoop R T (sortedShared R T) none with _ | ⟨m, lim⟩
  · exact absurd ((msfLoop_none_iff R T _).mp hcase i hmem) (not_le.mpr hpos)
  · obtain ⟨l₁, l₂, hsp, hpos2, heq, hb1, hb2⟩ := msfLoop_start_spec R T _ m lim hcase
    have hres : computeMaxSafeFraction R T = (m, lim) := by
      unfold computeMaxSafeFraction
      rw [hcase]
    have hlimmem : lim ∈ sortedShared R T := by
      rw [hsp]
      exact List.mem_append_right _ (List.mem_cons_self _ _)
    obtain ⟨hkR, hkT⟩ := mem_sortedShared.mp hlimmem
    rw [hres]
    exact ⟨hkR, hkT, hpos2, heq⟩

/-- C1 (amended): when every ingredient of the rework formula with positive
quantity also appears in the target formula, the plan computed at the max
safe fraction has no over-target line.  Without that condition the claim
fails: a rework-only ingredient is flagged (see the counterexample). -/
theorem c1_max_safe_bounded (R T : Formula)
    (hR : ∀ p ∈ R, 0 ≤ p.2) (hT : ∀ p ∈ T, 0 ≤ p.2)
    (hshare : ∃ i, i ∈ keys R ∧ i ∈ keys T ∧ 0 < fget R i)
    (hcov : ∀ i ∈ keys R, 0 < fget R i → i ∈ keys T) :
    ∀ l ∈ computePlan R T (computeMaxSafeFraction R T).1, l.overTarget = false := by
  intro l hl
  obtain ⟨i, hi, rfl⟩ := List.mem_map.mp hl
  dsimp only
  rw [decide_eq_false_iff_not, not_lt]
  have hadd : 0 ≤ fget T i - (computeMaxSafeFraction R T).1 * fget R i := by
    rcases (fget_nonneg R hR i).eq_or_lt with hz | hp
    · rw [← hz, mul_zero, sub_zero]
      exact fget_nonneg T hT i
    · have hiT := hcov i (fget_pos_mem R i hp) hp
      have hle := msf_le R T i (fget_pos_mem R i hp) hiT hp
      have := (le_div_iff hp).mp hle
      linarith
  have heps : (0 : ℚ) < epsTol := by norm_num [epsTol]
  linarith

/-- C3: the returned fraction is the minimum of target/rework over shared
ingredients with positive rework quantity, the reported limiting ingredient
is the first (in sorted ingredient order) attaining it, and when no shared
ingredient is eligible the result is the sentinel (0, N/A). -/
theorem c3_max_safe_fraction_spec (R T : Formula) :
    ((∀ i, i ∈ keys R → i ∈ keys T → fget R i = 0) →
      computeMaxSafeFraction R T = (0, "N/A"))
    ∧ (∀ i, i ∈ keys R → i ∈ keys T → 0 < fget R i →
      (computeMaxSafeFraction R T).1 ≤ fget T i / fget R i)
    ∧ ((∃ i, i ∈ keys R ∧ i ∈ keys T ∧ 0 < fget R i) →
      (computeMaxSafeFraction R T).2 ∈ keys R
      ∧ (computeMaxSafeFraction R T).2 ∈ keys T
      ∧ 0 < fget R (computeMaxSafeFraction R T).2
      ∧ (computeMaxSafeFraction R T).1
          = fget T (computeMaxSafeFraction R T).2
              / fget R (computeMaxSafeFraction R T).2
      ∧ ∀ j, j ∈ keys R → j ∈ keys T → 0 < fget R j →
          j < (computeMaxSafeFraction R T).2 →
          (computeMaxSafeFraction R T).1 < fget T j / fget R j) := by
  refine ⟨?_, fun i hiR hiT hpos => msf_le R T i hiR hiT hpos, ?_⟩
  · intro hz
    have hnone : msfLoop R T (sortedShared R T) none = none := by
      rw [msfLoop_none_iff]
      intro j hj
      obtain ⟨hjR, hjT⟩ := mem_sortedShared.mp hj
      exact le_of_eq (hz j hjR hjT)
    unfold computeMaxSafeFraction
    rw [hnone]
  · intro hex
    obtain ⟨i, hiR, hiT, hpos⟩ := hex
    have hmem : i ∈ sortedShared R T := mem_sortedShared.mpr ⟨hiR, hiT⟩
    rcases hcase : msfLoop R T (sortedShared R T) none with _ | ⟨m, lim⟩
    · exact absurd ((msfLoop_none_iff R T _).mp hcase i hmem) (not_le.mpr hpos)
    · obtain ⟨l₁, l₂, hsp, hpos2, heq, hb1, hb2⟩ :=
        msfLoop_start_spec R T _ m lim hcase
      have hres : computeMaxSafeFraction R T = (m, lim) := by
        unfold computeMaxSafeFraction
        rw [hcase]
      have hlimmem : lim ∈ sortedShared R T := by
        rw [hsp]
        exact List.mem_append_right _ (List.mem_cons_self _ _)
      obtain ⟨hkR, hkT⟩ := mem_sortedShared.mp hlimmem
      rw [hres]
      refine ⟨hkR, hkT, hpos2, heq, ?_⟩
      intro j hjR hjT hjpos hjlt
      have hjmem : j ∈ sortedShared R T := mem_sortedShared.mpr ⟨hjR, hjT⟩
      rw [hsp] at hjmem
      rcases List.mem_append.mp hjmem with hj1 | hj2
      · exact hb1 j hj1 hjpos
      · rcases List.mem_cons.mp hj2 with rfl | hj3
        · exact absurd hjlt (lt_irrefl _)
        · exfalso
          have hsorted := sorted_sortedShared R T
          rw [hsp] at hsorted
          have hp : (l₁ ++ lim :: l₂).Pairwise (fun a b => a ≤ b) := hsorted
          have hle : lim ≤ j :=
            (List.pairwise_cons.mp (List.pairwise_append.mp hp).2.1).1 j hj3
          exact absurd hjlt (not_lt.mpr hle)

/-- C3 witness: the sentinel case, the minimum bound and the attained
limiting ingredient on concrete pairs of formulas. -/
theorem c3_max_safe_fraction_spec_witness :
    computeMaxSafeFraction [("A", 1)] [("B", 2)] = (0, "N/A")
    ∧ (computeMaxSafeFraction [("A", 5)] [("A", 4)]).1
        ≤ fget [("A", 4)] "A" / fget [("A", 5)] "A"
    ∧ 0 < fget [("A", 5)] (computeMaxSafeFraction [("A", 5)] [("A", 4)]).2 := by
  refine ⟨?_, ?_, ?_⟩
  · exact (c3_max_safe_fraction_spec [("A", 1)] [("B", 2)]).1 (by
      intro i hiR hiT
      simp [keys] at hiR hiT
      rw [hiR] at hiT
      exact absurd hiT strNe_AB)
  · exact (c3_max_safe_fraction_spec [("A", 5)] [("A", 4)]).2.1 "A"
      (by simp [keys]) (by simp [keys]) (by norm_num [fget])
  · exact ((c3_max_safe_fraction_spec [("A", 5)] [("A", 4)]).2.2
      ⟨"A", by simp [keys], by simp [keys], by norm_num [fget]⟩).2.2.1

/-- C4 (amended): whenever the chosen fraction exceeds the max safe fraction
by enough that the excess times the limiting rework quantity is above the
1e-9 tolerance, the plan contains an over-target line.  An excess within the
tolerance may produce none (see the counterexample). -/
theorem c4_tightness_above_tolerance (R T : Formula) (f : ℚ)
    (hshare : ∃ i, i ∈ keys R ∧ i ∈ keys T ∧ 0 < fget R i)
    (hexceed : epsTol <
      (f - (computeMaxSafeFraction R T).1)
        * fget R (computeMaxSafeFraction R T).2) :
    0 < (computePlan R T f).countP (fun l => l.overTarget) := by
  obtain ⟨hkR, hkT, hpos, heq⟩ := msf_attained R T hshare
  have htg : fget T (computeMaxSafeFraction R T).2
      = (computeMaxSafeFraction R T).1 * fget R (computeMaxSafeFraction R T).2 := by
    rw [heq, div_mul_cancel₀ _ (ne_of_gt hpos)]
  have hmem : (computeMaxSafeFraction R T).2 ∈ sortedUnion R T :=
    mem_sortedUnion.mpr (Or.inl hkR)
  rw [List.countP_pos]
  refine ⟨_, List.mem_map.mpr ⟨(computeMaxSafeFraction R T).2, hmem, rfl⟩, ?_⟩
  dsimp only
  rw [decide_eq_true_eq, htg]
  nlinarith [hexceed]

/-- The ingredient column of a plan is exactly the sorted union of keys. -/
theorem computePlan_map_ing (R T : Formula) (f : ℚ) :
    (computePlan R T f).map (fun l => l.ing) = sortedUnion R T := by
  unfold computePlan
  rw [List.map_map]
  exact List.map_id _

/-- C5: the plan has exactly one line per ingredient of the union of the two
key sets, and each line carries used = fraction times rework quantity,
add-back = target minus used, and the over-target flag exactly when the
add-back is below -1e-9. -/
theorem c5_plan_lines (R T : Formula) (f : ℚ) :
    (∀ i : String, ((computePlan R T f).map (fun l => l.ing)).count i
      = if i ∈ keys R ∨ i ∈ keys T then 1 else 0)
    ∧ ∀ l ∈ computePlan R T f,
      l.used_g = f * fget R l.ing
      ∧ l.addBack_g = fget T l.ing - l.used_g
      ∧ (l.overTarget = true ↔ l.addBack_g < -epsTol) := by
  constructor
  · intro i
    rw [computePlan_map_ing]
    by_cases h : i ∈ keys R ∨ i ∈ keys T
    · rw [if_pos h]
      exact List.count_eq_one_of_mem (nodup_sortedUnion R T) (mem_sortedUnion.mpr h)
    · rw [if_neg h]
      exact List.count_eq_zero.mpr (fun hmem => h (mem_sortedUnion.mp hmem))
  · intro l hl
    obtain ⟨i, hi, rfl⟩ := List.mem_map.mp hl
    refine ⟨rfl, rfl, ?_⟩
    dsimp only
    rw [decide_eq_true_eq]

/-- C5 witness: the counting part and the line laws applied to a concrete
plan. -/
theorem c5_plan_lines_witness :
    ((computePlan c1wR c1wT 1).map (fun l => l.ing)).count "A" = 1
    ∧ (⟨"A", 2, 1, 2, -1, true⟩ : PlanLine).used_g = 1 * fget c1wR "A" := by
  have hsu : sortedUnion c1wR c1wT = ["A"] := by
    simp [sortedUnion, keys, c1wR, c1wT, List.insertionSort]
  have hplan : computePlan c1wR c1wT 1 = [⟨"A", 2, 1, 2, -1, true⟩] := by
    rw [computePlan, hsu]
    norm_num [fget, c1wR, c1wT, epsTol]
  constructor
  · rw [(c5_plan_lines c1wR c1wT 1).1 "A"]
    simp [keys, c1wR]
  · exact ((c5_plan_lines c1wR c1wT 1).2 ⟨"A", 2, 1, 2, -1, true⟩
      (by rw [hplan]; simp)).1

/-- Splitting an if-then-else lookup out of a mapped sum over a list without
duplicates that contains the distinguished key. -/
theorem sum_map_ite_erase (U : List String) (k : String) (v : ℚ) (g : String → ℚ)
    (hU : U.Nodup) (hk : k ∈ U) :
    (U.map (fun i => if i = k then v else g i)).sum
      = v + ((U.erase k).map g).sum := by
  induction U with
  | nil => simp at hk
  | cons u U2 ih =>
    have hnd := List.nodup_cons.mp hU
    by_cases huk : u = k
    · subst huk
      rw [List.erase_cons_head]
      have hcong : U2.map (fun i => if i = u then v else g i) = U2.map g := by
        apply List.map_congr_left
        intro j hj
        rw [if_neg]
        intro hjk
        exact hnd.1 (hjk ▸ hj)
      rw [List.map_cons, List.sum_cons, hcong, if_pos rfl]
    · have hk2 : k ∈ U2 := by
        rcases List.mem_cons.mp hk with h | h
        · exact absurd h.symm huk
        · exact h
      rw [List.erase_cons_tail]
      · simp only [List.map_cons, List.sum_cons, if_neg huk]
        rw [ih hnd.2 hk2]
        ring
      · simp [huk]

/-- Summing the lookups of a formula with distinct keys over any duplicate-free
superset of its keys gives the formula total. -/
theorem sum_fget_superset :
    ∀ (T : Formula) (U : List String), U.Nodup → (keys T).Nodup →
      (∀ k ∈ keys T, k ∈ U) → (U.map (fget T)).sum = ftotal T := by
  intro T
  induction T with
  | nil =>
    intro U _ _ _
    simp [fget, ftotal, qtys]
  | cons p T2 ih =>
    obtain ⟨k, v⟩ := p
    intro U hU hTk hsub
    have hTk2 : (k :: keys T2).Nodup := hTk
    have hnd := List.nodup_cons.mp hTk2
    have hkU : k ∈ U := hsub k (List.mem_cons_self _ _)
    have hstep : (U.map (fget ((k, v) :: T2))).sum
        = v + ((U.erase k).map (fget T2)).sum := by
      have hcong : U.map (fget ((k, v) :: T2))
          = U.map (fun i => if i = k then v else fget T2 i) := by
        apply List.map_congr_left
        intro j _
        rfl
      rw [hcong]
      exact sum_map_ite_erase U k v (fget T2) hU hkU
    rw [hstep, ih (U.erase k) (hU.erase k) hnd.2 ?_]
    · simp [ftotal, qtys]
    · intro j hj
      have hjk : j ≠ k := by
        intro hjk
        exact hnd.1 (hjk ▸ hj)
      exact (List.mem_erase_of_ne hjk).mpr (hsub j (List.mem_cons_of_mem _ hj))

/-- C6: for every rework formula, target formula and fraction, the used
quantities plus the add-back quantities of the plan sum exactly to the total
of the target formula. -/
theorem c6_plan_conservation (R T : Formula) (f : ℚ) (hT : (keys T).Nodup) :
    ((computePlan R T f).map (fun l => l.used_g)).sum
      + ((computePlan R T f).map (fun l => l.addBack_g)).sum = ftotal T := by
  have h1 : (computePlan R T f).map (fun l => l.used_g)
      = (sortedUnion R T).map (fun i => f * fget R i) := by
    unfold computePlan
    rw [List.map_map]
    rfl
  have h2 : (computePlan R T f).map (fun l => l.addBack_g)
      = (sortedUnion R T).map (fun i => fget T i - f * fget R i) := by
    unfold computePlan
    rw [List.map_map]
    rfl
  rw [h1, h2, ← sum_map_add]
  have h3 : (sortedUnion R T).map (fun i => f * fget R i + (fget T i - f * fget R i))
      = (sortedUnion R T).map (fget T) := by
    apply List.map_congr_left
    intro i _
    ring
  rw [h3]
  exact sum_fget_superset T (sortedUnion R T) (nodup_sortedUnion R T) hT
    (fun k hk => mem_sortedUnion.mpr (Or.inr hk))

/-- C6 witness: conservation on a concrete plan. -/
theorem c6_plan_conservation_witness :
    ((computePlan c1R c1T (1/2)).map (fun l => l.used_g)).sum
      + ((computePlan c1R c1T (1/2)).map (fun l => l.addBack_g)).sum = ftotal c1T :=
  c6_plan_conservation c1R c1T (1/2) (by simp [keys, c1T])

/-- C7 (amended): each feasibility row carries required = grouped sum of
total weight times percent over 100, on-hand looked up with default 0,
shortage = the difference rounded to 4 decimals (pandas round), and FAIL
exactly when the rounded shortage is positive; the 70/30 example of the
specification holds as stated. -/
theorem c7_feasibility_rows (bom : List (String × ℚ)) (totalWeight : ℚ)
    (onhand : Formula) :
    (∀ r ∈ feasRows bom totalWeight onhand,
      r.requiredAmt = requiredLB bom totalWeight r.material
      ∧ r.onHand = fget onhand r.material
      ∧ r.shortage = pandasRound4 (r.requiredAmt - r.onHand)
      ∧ (r.status = "FAIL" ↔ 0 < r.shortage))
    ∧ feasRows exBom 1000 exOnHand
      = [⟨"A", 700, 500, 200, "FAIL"⟩, ⟨"B", 300, 400, -100, "PASS"⟩] := by
  constructor
  · intro r hr
    obtain ⟨k, hk, rfl⟩ := List.mem_map.mp hr
    refine ⟨rfl, rfl, rfl, ?_⟩
    dsimp only
    by_cases h : 0 < pandasRound4 (requiredLB bom totalWeight k - fget onhand k)
    · rw [if_pos h]
      simp [h]
    · rw [if_neg h]
      constructor
      · intro hcon
        exact absurd hcon (by simp)
      · intro hcon
        exact absurd hcon h
  · have hmats : bomMaterials exBom = ["A", "B"] := by
      simp [bomMaterials, exBom, List.insertionSort, List.orderedInsert,
        strLe_AB, strNe_AB, strNe_BA, charLt_AB, charNotLt_BA]
    have hr1 : pandasRound4 200 = 200 := by
      norm_num [pandasRound4, roundHalfEven]
    have hr2 : pandasRound4 (-100) = -100 := by
      norm_num [pandasRound4, roundHalfEven]
    rw [feasRows, hmats]
    norm_num [requiredLB, exBom, exOnHand, fget, hr1, hr2, strNe_AB, strNe_BA]

/-- C7 witness: the row laws and the worked example applied concretely. -/
theorem c7_feasibility_rows_witness :
    (feasRows exBom 1000 exOnHand).map (fun r => r.status) = ["FAIL", "PASS"]
    ∧ ((⟨"A", 700, 500, 200, "FAIL"⟩ : FeasRow).status = "FAIL"
        ↔ 0 < (⟨"A", 700, 500, 200, "FAIL"⟩ : FeasRow).shortage) := by
  constructor
  · rw [(c7_feasibility_rows exBom 1000 exOnHand).2]
    rfl
  · exact ((c7_feasibility_rows exBom 1000 exOnHand).1
      ⟨"A", 700, 500, 200, "FAIL"⟩
      (by rw [(c7_feasibility_rows exBom 1000 exOnHand).2]; simp)).2.2.2

/-- Appending one transaction adds its quantity to the matching triple sum. -/
theorem ledgerSum_append_single (led : List Txn) (t : Txn) (m loc uom : String) :
    ledgerSum (led ++ [t]) m loc uom
      = ledgerSum led m loc uom
        + (if t.material = m ∧ t.location = loc ∧ t.uom = uom then t.qty else 0) := by
  unfold ledgerSum
  rw [List.filter_append, List.map_append, List.sum_append]
  congr 1
  by_cases h : t.material = m ∧ t.location = loc ∧ t.uom = uom
  · rw [if_pos h]
    simp [List.filter, h]
  · rw [if_neg h]
    simp [List.filter, h]

/-- Running a list of operations adds their signed contributions to the
triple sum of the starting ledger. -/
theorem ledgerSum_runOps (m loc uom : String) :
    ∀ (ops : List InvOp) (led : List Txn),
    ledgerSum (runOps led ops) m loc uom
      = ledgerSum led m loc uom + signedTotal ops m loc uom := by
  intro ops
  induction ops with
  | nil =>
    intro led
    simp [runOps, signedTotal]
  | cons op ops ih =>
    intro led
    have hstep : runOps led (op :: ops) = runOps (postOp led op) ops := rfl
    rw [hstep, ih]
    have hcontr : ledgerSum (postOp led op) m loc uom
        = ledgerSum led m loc uom + opContribution op m loc uom := by
      cases op with
      | receipt m2 l2 lot u2 notes q =>
        rw [show postOp led (.receipt m2 l2 lot u2 notes q)
            = led ++ [⟨m2, l2, lot, "RECEIPT", q, u2, notes⟩] from rfl]
        rw [ledgerSum_append_single]
        rfl
      | issue m2 l2 lot u2 notes q =>
        rw [show postOp led (.issue m2 l2 lot u2 notes q)
            = led ++ [⟨m2, l2, lot, "ISSUE", -q, u2, notes⟩] from rfl]
        rw [ledgerSum_append_single]
        rfl
    have hsig : signedTotal (op :: ops) m loc uom
        = opContribution op m loc uom + signedTotal ops m loc uom := by
      simp [signedTotal]
    rw [hcontr, hsig]
    ring

/-- C9 (amended): for every sequence of receipt and issue operations and
every (material, location, unit) triple, the on-hand reported by
get_on_hand_by_location equals the signed sum of the operations (receipts
positive, issues negated) rounded to 4 decimals by SQLite ROUND, and every
operation only appends one row to the ledger. -/
theorem c9_ledger_on_hand (ops : List InvOp) (m loc uom : String) :
    getOnHandByLocation (runOps [] ops) loc uom m
      = sqliteRound4 (signedTotal ops m loc uom)
    ∧ ∀ (led : List Txn) (op : InvOp), ∃ t, postOp led op = led ++ [t] := by
  constructor
  · unfold getOnHandByLocation
    rw [ledgerSum_runOps m loc uom ops []]
    have hz : ledgerSum [] m loc uom = 0 := by simp [ledgerSum]
    rw [hz, zero_add]
  · intro led op
    cases op with
    | receipt m2 l2 lot u2 notes q => exact ⟨_, rfl⟩
    | issue m2 l2 lot u2 notes q => exact ⟨_, rfl⟩

/-- C10: in auto mode the fraction passed to compute_plan is the minimum of 1
and the max safe fraction; on a concrete input with max safe fraction above
1 the capped plan differs from the plan at the max safe fraction. -/
theorem c10_auto_caps_fraction (R T : Formula) (manualPct : ℚ)
    (hR : 0 < ftotal R) (hT : 0 < ftotal T) :
    calculateReworkPlan R T .auto manualPct
      = .ok (min 1 (computeMaxSafeFraction R T).1,
          computePlan R T (min 1 (computeMaxSafeFraction R T).1))
    ∧ 1 < (computeMaxSafeFraction c10R c10T).1
    ∧ (computePlan c10R c10T (min 1 (computeMaxSafeFraction c10R c10T).1)).map
        (fun l => l.used_g)
      ≠ (computePlan c10R c10T (computeMaxSafeFraction c10R c10T).1).map
        (fun l => l.used_g) := by
  have hmsf : computeMaxSafeFraction c10R c10T = (2, "A") := by
    have hs : sortedShared c10R c10T = ["A"] := by
      simp [sortedShared, keys, c10R, c10T, List.insertionSort]
    unfold computeMaxSafeFraction
    rw [hs]
    norm_num [msfLoop, fget, c10R, c10T]
  have hsu : sortedUnion c10R c10T = ["A"] := by
    simp [sortedUnion, keys, c10R, c10T, List.insertionSort]
  refine ⟨?_, ?_, ?_⟩
  · unfold calculateReworkPlan
    rw [if_neg (by push_neg; exact ⟨hR, hT⟩)]
    dsimp only
    have hmin : min 100 ((computeMaxSafeFraction R T).1 * 100) / 100
        = min 1 (computeMaxSafeFraction R T).1 := by
      rcases le_total 1 (computeMaxSafeFraction R T).1 with h | h
      · rw [min_eq_left (by linarith), min_eq_left h]
        norm_num
      · rw [min_eq_right (by linarith), min_eq_right h]
        ring
    rw [hmin]
  · rw [hmsf]
    norm_num
  · rw [hmsf]
    have hfrac : min (1 : ℚ) (2, "A").1 = 1 := by norm_num
    rw [hfrac, computePlan, computePlan, hsu]
    norm_num [fget, c10R, c10T]

/-- C10 witness: the capped fraction result on a concrete input. -/
theorem c10_auto_caps_fraction_witness :
    calculateReworkPlan c10R c10T .auto 80
      = .ok (min 1 (computeMaxSafeFraction c10R c10T).1,
          computePlan c10R c10T (min 1 (computeMaxSafeFraction c10R c10T).1)) :=
  (c10_auto_caps_fraction c10R c10T 80 (by norm_num [ftotal, qtys, c10R])
    (by norm_num [ftotal, qtys, c10T])).1

/-- C1 witness: the amended boundedness applied to a concrete covered pair. -/
theorem c1_max_safe_bounded_witness :
    (computePlan c1wR c1wT (computeMaxSafeFraction c1wR c1wT).1).filter
      (fun l => l.overTarget) = [] := by
  rw [List.filter_eq_nil]
  intro l hl
  have h := c1_max_safe_bounded c1wR c1wT
    (by norm_num [c1wR])
    (by norm_num [c1wT])
    ⟨"A", by simp [keys, c1wR], by simp [keys, c1wT], by norm_num [fget, c1wR]⟩
    (by
      intro i hi hpos
      simp only [keys, c1wR, List.map_cons, List.map_nil, List.mem_singleton] at hi
      simp [keys, c1wT, hi])
    l hl
  simp [h]

/-- C4 witness: the amended tightness applied to a concrete fraction well
above the tolerance. -/
theorem c4_tightness_above_tolerance_witness :
    0 < (computePlan c4R c4T 2).countP (fun l => l.overTarget) := by
  have hmsf : computeMaxSafeFraction c4R c4T = (1, "A") := by
    have hs : sortedShared c4R c4T = ["A"] := by
      simp [sortedShared, keys, c4R, c4T, List.insertionSort]
    unfold computeMaxSafeFraction
    rw [hs]
    norm_num [msfLoop, fget, c4R, c4T]
  apply c4_tightness_above_tolerance c4R c4T 2
    ⟨"A", by simp [keys, c4R], by simp [keys, c4T], by norm_num [fget, c4R]⟩
  rw [hmsf]
  norm_num [fget, c4R, epsTol]

/-- C1 counterexample: the formulas share ingredient A with positive rework
quantity, yet the plan at the computed max safe fraction contains an
over-target line (the rework-only ingredient B). -/
theorem c1_counterexample :
    ("A" ∈ keys c1R ∧ "A" ∈ keys c1T ∧ 0 < fget c1R "A")
    ∧ 0 < (computePlan c1R c1T (computeMaxSafeFraction c1R c1T).1).countP
        (fun l => l.overTarget) := by
  have hmsf : computeMaxSafeFraction c1R c1T = (1/2, "A") := by
    have hs : sortedShared c1R c1T = ["A"] := by
      simp [sortedShared, keys, c1R, c1T, List.inter_def, List.insertionSort,
        strNe_AB, strNe_BA]
    unfold computeMaxSafeFraction
    rw [hs]
    norm_num [msfLoop, fget, c1R, c1T, strNe_AB, strNe_BA]
  have hsu : sortedUnion c1R c1T = ["A", "B"] := by
    simp [sortedUnion, keys, c1R, c1T, List.insertionSort, List.orderedInsert,
      strLe_AB, strNe_AB, strNe_BA, charLt_AB, charNotLt_BA]
  refine ⟨⟨by simp [keys, c1R], by simp [keys, c1T], by norm_num [fget, c1R]⟩, ?_⟩
  rw [hmsf, computePlan, hsu]
  norm_num [fget, c1R, c1T, epsTol, strNe_AB, strNe_BA,
    List.countP_cons, List.countP_nil]

/-- C4 counterexample: exceeding the max safe fraction by a strictly positive
epsilon below the tolerance produces a plan with no over-target line. -/
theorem c4_counterexample :
    (computeMaxSafeFraction c4R c4T).1
      < (computeMaxSafeFraction c4R c4T).1 + 1 / 10000000000
    ∧ ("A" ∈ keys c4R ∧ "A" ∈ keys c4T ∧ 0 < fget c4R "A")
    ∧ (computePlan c4R c4T
        ((computeMaxSafeFraction c4R c4T).1 + 1 / 10000000000)).countP
        (fun l => l.overTarget) = 0 := by
  have hmsf : computeMaxSafeFraction c4R c4T = (1, "A") := by
    have hs : sortedShared c4R c4T = ["A"] := by
      simp [sortedShared, keys, c4R, c4T, List.insertionSort]
    unfold computeMaxSafeFraction
    rw [hs]
    norm_num [msfLoop, fget, c4R, c4T]
  have hsu : sortedUnion c4R c4T = ["A"] := by
    simp [sortedUnion, keys, c4R, c4T, List.insertionSort]
  refine ⟨by norm_num,
    ⟨by simp [keys, c4R], by simp [keys, c4T], by norm_num [fget, c4R]⟩, ?_⟩
  rw [hmsf, computePlan, hsu]
  norm_num [fget, c4R, c4T, epsTol, List.countP_cons, List.countP_nil]

/-- C7 counterexample: a BOM row with a tiny positive requirement and empty
inventory gives a strictly positive raw shortage, yet the rounded shortage
is 0 and the status is PASS, refuting the unrounded reading of the claim. -/
theorem c7_counterexample :
    0 < requiredLB [("A", 1/1000)] 1 "A" - fget [] "A"
    ∧ (feasRows [("A", 1/1000)] 1 []).map (fun r => r.status) = ["PASS"]
    ∧ (feasRows [("A", 1/1000)] 1 []).map (fun r => r.shortage)
        ≠ [requiredLB [("A", 1/1000)] 1 "A" - fget [] "A"] := by
  have hmats : bomMaterials [("A", 1/1000)] = ["A"] := by
    simp [bomMaterials, List.insertionSort]
  have hreq : requiredLB [("A", 1/1000)] 1 "A" = 1/100000 := by
    norm_num [requiredLB]
  have hrnd : pandasRound4 (1/100000) = 0 := by
    norm_num [pandasRound4, roundHalfEven]
  refine ⟨?_, ?_, ?_⟩
  · rw [hreq]
    norm_num [fget]
  · rw [feasRows, hmats]
    norm_num [hreq, fget, hrnd]
  · rw [feasRows, hmats]
    norm_num [fget, hreq, hrnd]

/-- C9 counterexample: one receipt with a quantity below the rounding unit
is reported as on-hand 0 even though its signed ledger sum is positive,
refuting the unrounded reading of the claim. -/
theorem c9_counterexample :
    getOnHandByLocation
        (runOps [] [InvOp.receipt "A" "AWLMIX" "" "LB" "" (1/100000)])
        "AWLMIX" "LB" "A" = 0
    ∧ signedTotal [InvOp.receipt "A" "AWLMIX" "" "LB" "" (1/100000)]
        "A" "AWLMIX" "LB" = 1/100000
    ∧ (0 : ℚ) ≠ 1/100000 := by
  have hsig : signedTotal [InvOp.receipt "A" "AWLMIX" "" "LB" "" (1/100000)]
      "A" "AWLMIX" "LB" = 1/100000 := by
    simp [signedTotal, opContribution]
  refine ⟨?_, hsig, by norm_num⟩
  unfold getOnHandByLocation
  rw [ledgerSum_runOps, hsig]
  have hz : ledgerSum [] "A" "AWLMIX" "LB" = 0 := by simp [ledgerSum]
  rw [hz, zero_add]
  norm_num [sqliteRound4, roundHalfAway]

end AwlMix
